import Mathlib

/-!
Shallow embedding of the todo-list state management implemented in
`src/components/TodoList.tsx`, together with proofs of the behavioural
properties of its operations.

The component keeps its state in a JavaScript array `todos` of records
`{ id, text, completed, order?, isAnimating? }` and mutates it only by
whole-value replacement (`setTodos`).  Each mutation is a pure function
from the old array to the new one; those functions are embedded below as
Lean functions on `List Todo`.  JavaScript numbers used as ids are
embedded as `Int` (the program only ever produces integer ids).
-/

/-- The `Todo` record type of `TodoList.tsx` (lines 35-41).  The two
optional fields are embedded as `Option`s; a JS record without the field
corresponds to `none`. -/
structure Todo where
  id : Int
  text : String
  completed : Bool
  order : Option Int := none
  isAnimating : Option Bool := none
deriving Repr, DecidableEq

namespace TodoApp

/-- `generateId` (TodoList.tsx lines 145-147):
`todos.length > 0 ? Math.max(...todos.map(t => t.id)) + 1 : 1`.
`Math.max` over the (nonempty) spread is embedded as a left fold of
`max` over the mapped ids. -/
def generateId (todos : List Todo) : Int :=
  match todos.map (fun todo => todo.id) with
  | [] => 1
  | x :: xs => xs.foldl max x + 1

/-- JavaScript's `String.prototype.trim` (a platform primitive):
removes whitespace from both ends of the string. -/
def jsTrim (s : String) : String :=
  ⟨((s.data.dropWhile Char.isWhitespace).reverse.dropWhile Char.isWhitespace).reverse⟩

/-- `addTodo` (TodoList.tsx lines 150-161), as a function of the input
text (`newTodo`) and the current array: no-op when the trimmed text is
empty, otherwise appends `{ id: generateId(), text: newTodo,
completed: false }`. -/
def addTodo (newTodo : String) (todos : List Todo) : List Todo :=
  if jsTrim newTodo = "" then todos
  else todos ++ [{ id := generateId todos, text := newTodo, completed := false }]

/-- The synchronous update of `toggleTodo` (TodoList.tsx lines 164-171):
maps the array, replacing each record whose id matches with
`{ ...todo, completed: !todo.completed, isAnimating: true }`. -/
def toggleTodo (tid : Int) (todos : List Todo) : List Todo :=
  todos.map (fun todo =>
    if todo.id == tid then
      { todo with completed := !todo.completed, isAnimating := some true }
    else todo)

/-- The deferred `setTimeout` callback inside `toggleTodo`
(TodoList.tsx lines 174-180): maps the array, setting
`isAnimating: false` on each record whose id matches. -/
def clearAnimation (tid : Int) (todos : List Todo) : List Todo :=
  todos.map (fun todo =>
    if todo.id == tid then { todo with isAnimating := some false } else todo)

/-- `deleteTodo` (TodoList.tsx lines 184-186):
`todos.filter(todo => todo.id !== id)`. -/
def deleteTodo (tid : Int) (todos : List Todo) : List Todo :=
  todos.filter (fun todo => todo.id != tid)

/-- dnd-kit's `arrayMove(array, from, to)`: removes the element at
index `from` and re-inserts it at index `to`.  `handleDragEnd` only
calls it with indices returned by successful `findIndex` calls, so both
indices are always in range; the out-of-range `from` behaviour of the JS
helper (which would insert `undefined`) is unreachable in this program
and the embedding returns the list unchanged there. -/
def arrayMove (l : List α) (i j : Nat) : List α :=
  match l[i]? with
  | some x => (l.eraseIdx i).insertIdx j x
  | none => l

/-- `handleDragEnd` (TodoList.tsx lines 196-216) as a function of the
drag event's `active.id` and `over?.id` (`none` when `over` is null) and
the current array.  JS `findIndex` returns `-1` when no element
matches; indexing the array at `-1` yields `undefined`, and the
subsequent `activeItem.completed === overItem.completed` access then
throws a `TypeError`.  That is embedded by `List.findIdx` (which
returns `items.length` when nothing matches, making `items[...]?`
return `none`) and an `Except` error result for the thrown exception. -/
def handleDragEnd (items : List Todo) (activeId : Int) (overId : Option Int) :
    Except Unit (List Todo) :=
  match overId with
  | none => .ok items
  | some oid =>
    if activeId = oid then .ok items
    else
      let activeIndex := items.findIdx (fun item => item.id == activeId)
      let overIndex := items.findIdx (fun item => item.id == oid)
      match items[activeIndex]?, items[overIndex]? with
      | some activeItem, some overItem =>
        if activeItem.completed = overItem.completed then
          .ok (arrayMove items activeIndex overIndex)
        else .ok items
      | _, _ => .error ()

/-- The derived active partition (TodoList.tsx line 224):
`todos.filter(todo => !todo.completed)`. -/
def activeTodos (todos : List Todo) : List Todo :=
  todos.filter (fun todo => !todo.completed)

/-- The derived completed partition (TodoList.tsx line 225):
`todos.filter(todo => todo.completed)`. -/
def completedTodos (todos : List Todo) : List Todo :=
  todos.filter (fun todo => todo.completed)

/-! ### Persistence model

The component persists `todos` with `localStorage.setItem("todos",
JSON.stringify(todos))` and restores it with `JSON.parse` inside a
`try`/`catch` (TodoList.tsx lines 116-134).  `JSON.stringify` /
`JSON.parse` are browser primitives, embedded at the level of the JSON
values they denote: a stored slot is either absent, a string on which
`JSON.parse` throws, or the JSON value that string parses to
(`JSON.parse (JSON.stringify v) = v` for every JSON value `v`, so the
string layer carries no extra information). -/

/-- A JSON value, as produced by `JSON.parse`.  Numbers are restricted
to the integers this program stores. -/
inductive JsValue where
  | jnull
  | jbool (b : Bool)
  | jnum (n : Int)
  | jstr (s : String)
  | jarr (items : List JsValue)
  | jobj (fields : List (String × JsValue))

/-- The durable `"todos"` slot as seen through `JSON.parse`. -/
inductive StoredSlot where
  | absent
  | malformed
  | value (v : JsValue)

/-- The load effect (TodoList.tsx lines 116-125): the component state
after the mount-time `useEffect`.  The state starts as `[]`; if the slot
is absent it is left alone; if `JSON.parse` throws, the error is caught
and logged and the state is left alone; otherwise `setTodos` installs
the parsed value as-is, with no shape validation. -/
def loadTodos (slot : StoredSlot) : JsValue :=
  match slot with
  | .absent => .jarr []
  | .malformed => .jarr []
  | .value v => v

/-- `JSON.stringify` of one todo record: an object with the record's
fields in declaration order, optional fields omitted when absent. -/
def encodeTodo (t : Todo) : JsValue :=
  .jobj ([("id", .jnum t.id), ("text", .jstr t.text), ("completed", .jbool t.completed)]
    ++ (match t.order with | some o => [("order", .jnum o)] | none => [])
    ++ (match t.isAnimating with | some b => [("isAnimating", .jbool b)] | none => []))

/-- `JSON.stringify` of the whole `todos` array. -/
def encodeTodos (todos : List Todo) : JsValue :=
  .jarr (todos.map encodeTodo)

/-- The save effect (TodoList.tsx lines 128-134): overwrites the slot
with the serialized collection. -/
def saveTodos (todos : List Todo) : StoredSlot :=
  .value (encodeTodos todos)

/-- Field lookup in a JSON object. -/
def lookupField (fields : List (String × JsValue)) (k : String) : Option JsValue :=
  (fields.find? (fun f => f.1 == k)).map (fun f => f.2)

/-- Reads a JSON value back as a `Todo` record, per the record shape of
TodoList.tsx lines 35-41 (used to state what a stored value *means* as
a collection; the program itself performs no such validation). -/
def decodeTodo (v : JsValue) : Option Todo :=
  match v with
  | .jobj fields =>
    match lookupField fields "id", lookupField fields "text",
          lookupField fields "completed" with
    | some (.jnum i), some (.jstr s), some (.jbool c) =>
      some { id := i, text := s, completed := c,
             order := match lookupField fields "order" with
                      | some (.jnum o) => some o
                      | _ => none,
             isAnimating := match lookupField fields "isAnimating" with
                            | some (.jbool b) => some b
                            | _ => none }
    | _, _, _ => none
  | _ => none

/-- Reads a JSON value back as a whole todo collection. -/
def decodeTodos (v : JsValue) : Option (List Todo) :=
  match v with
  | .jarr items => items.mapM decodeTodo
  | _ => none

/-! ### Helper lemmas about `max` folds (for `generateId`) -/

theorem self_le_foldl_max (xs : List Int) (x : Int) : x ≤ xs.foldl max x := by
  induction xs generalizing x with
  | nil => exact le_refl x
  | cons a as ih => exact le_trans (le_max_left x a) (ih (max x a))

theorem mem_le_foldl_max (xs : List Int) (x y : Int) (h : y ∈ xs) :
    y ≤ xs.foldl max x := by
  induction xs generalizing x with
  | nil => cases h
  | cons a as ih =>
    rcases List.mem_cons.mp h with rfl | h
    · exact le_trans (le_max_right x y) (self_le_foldl_max as (max x y))
    · exact ih (max x a) h

theorem foldl_max_mem (xs : List Int) (x : Int) :
    xs.foldl max x = x ∨ xs.foldl max x ∈ xs := by
  induction xs generalizing x with
  | nil => left; rfl
  | cons a as ih =>
    rcases ih (max x a) with h | h
    · rcases max_choice x a with hx | hx
      · left; rw [List.foldl_cons, h, hx]
      · right; rw [List.foldl_cons, h, hx]; exact List.mem_cons_self a as
    · right; exact List.mem_cons_of_mem a h

/-- `generateId` on a nonempty collection, unfolded. -/
theorem generateId_cons (t : Todo) (ts : List Todo) :
    generateId (t :: ts) = (ts.map (fun u => u.id)).foldl max t.id + 1 := rfl

/-- Every id already in the collection is strictly below the freshly
generated one. -/
theorem id_lt_generateId (todos : List Todo) (u : Todo) (hu : u ∈ todos) :
    u.id < generateId todos := by
  cases todos with
  | nil => cases hu
  | cons t ts =>
    rw [generateId_cons]
    rcases List.mem_cons.mp hu with rfl | h
    · have := self_le_foldl_max (ts.map (fun x => x.id)) u.id; omega
    · have := mem_le_foldl_max (ts.map (fun x => x.id)) t.id u.id
        (List.mem_map_of_mem (fun x => x.id) h)
      omega

/-- On a nonempty collection, `generateId - 1` is one of the existing
ids (namely the maximal one). -/
theorem generateId_sub_one_mem (t : Todo) (ts : List Todo) :
    generateId (t :: ts) - 1 ∈ (t :: ts).map (fun u => u.id) := by
  rw [generateId_cons]
  have h := foldl_max_mem (ts.map (fun u => u.id)) t.id
  have he : (ts.map (fun u => u.id)).foldl max t.id + 1 - 1
      = (ts.map (fun u => u.id)).foldl max t.id := by omega
  rw [he, List.map_cons]
  rcases h with h | h
  · rw [h]; exact List.mem_cons_self _ _
  · exact List.mem_cons_of_mem _ h

end TodoApp

namespace TodoApp

/-- Claim C3: if the trimmed text is empty, `add(text)` leaves the
collection unchanged; otherwise it appends exactly one record with
`completed = false` whose id is `max(existing ids) + 1` (`1` on an
empty collection) and is distinct from every existing id. -/
theorem addTodo_spec (todos : List Todo) (text : String) :
    (jsTrim text = "" → addTodo text todos = todos) ∧
    (jsTrim text ≠ "" →
      (addTodo text todos).length = todos.length + 1 ∧
      ∃ t : Todo, addTodo text todos = todos ++ [t] ∧
        t.completed = false ∧
        (todos = [] → t.id = 1) ∧
        (todos ≠ [] → ((t.id - 1) ∈ todos.map (fun u => u.id) ∧
          ∀ u ∈ todos, u.id ≤ t.id - 1)) ∧
        (∀ u ∈ todos, u.id ≠ t.id)) := by
  constructor
  · intro h; simp [addTodo, h]
  · intro h
    refine ⟨by simp [addTodo, h], ?_⟩
    refine ⟨{ id := generateId todos, text := text, completed := false },
      by simp [addTodo, h], rfl, ?_, ?_, ?_⟩
    · intro he; subst he; rfl
    · intro hne
      constructor
      · show generateId todos - 1 ∈ todos.map (fun u => u.id)
        cases todos with
        | nil => exact absurd rfl hne
        | cons t ts => exact generateId_sub_one_mem t ts
      · intro u hu
        have := id_lt_generateId todos u hu
        show u.id ≤ generateId todos - 1
        omega
    · intro u hu
      have h1 := id_lt_generateId todos u hu
      show u.id ≠ generateId todos
      omega

/-- Witness for `addTodo_spec` at a concrete collection and text. -/
theorem addTodo_spec_witness :
    jsTrim "milk" ≠ "" ∧
    (addTodo "milk" [{ id := 1, text := "a", completed := false }]).length = 2 :=
  ⟨by decide, ((addTodo_spec [{ id := 1, text := "a", completed := false }]
      "milk").2 (by decide)).1⟩

/-- The per-record update function of `toggleTodo` preserves ids. -/
theorem toggleTodo_map_id (tid : Int) (todos : List Todo) :
    (toggleTodo tid todos).map (fun t => t.id) = todos.map (fun t => t.id) := by
  unfold toggleTodo
  rw [List.map_map]
  apply List.map_congr_left
  intro a _
  by_cases h : a.id = tid <;> simp [h]

/-- Applying the toggle update twice restores each record's id and
`completed` value. -/
theorem toggleTodo_toggleTodo_map_pair (tid : Int) (todos : List Todo) :
    (toggleTodo tid (toggleTodo tid todos)).map (fun t => (t.id, t.completed))
      = todos.map (fun t => (t.id, t.completed)) := by
  unfold toggleTodo
  rw [List.map_map, List.map_map]
  apply List.map_congr_left
  intro a _
  by_cases h : a.id = tid <;> simp [h]

/-- Indexing a list at `findIdx p` is exactly `find? p` (also when
nothing matches: `findIdx` is then the length and the lookup is
`none`).  This is the Lean counterpart of the JS idiom
`items[items.findIndex(p)]`, whose absent case yields `undefined`. -/
theorem getElem?_findIdx (l : List α) (p : α → Bool) :
    l[l.findIdx p]? = l.find? p := by
  induction l with
  | nil => rfl
  | cons a as ih =>
    by_cases h : p a
    · simp [List.findIdx_cons, h]
    · simp [List.findIdx_cons, h, ih]

/-- When an id is present and ids are unique, deleting it shrinks the
collection by exactly one. -/
theorem deleteTodo_length (todos : List Todo) (tid : Int)
    (hnd : (todos.map (fun t => t.id)).Nodup)
    (hmem : ∃ t ∈ todos, t.id = tid) :
    (deleteTodo tid todos).length + 1 = todos.length := by
  induction todos with
  | nil => obtain ⟨t, ht, _⟩ := hmem; cases ht
  | cons a as ih =>
    rw [List.map_cons, List.nodup_cons] at hnd
    obtain ⟨t, ht, hid⟩ := hmem
    rcases List.mem_cons.mp ht with rfl | hmem'
    · have hno : ∀ u ∈ as, u.id ≠ tid := by
        intro u hu he
        have : u.id = t.id := he.trans hid.symm
        exact hnd.1 (this ▸ List.mem_map_of_mem (fun x => x.id) hu)
      have hdel : deleteTodo tid as = as := by
        rw [deleteTodo, List.filter_eq_self]
        intro u hu
        simpa using hno u hu
      show (deleteTodo tid (t :: as)).length + 1 = as.length + 1
      rw [deleteTodo, List.filter_cons_of_neg (by simp [hid]), ← deleteTodo, hdel]
    · have hane : a.id ≠ tid := by
        intro he
        have : a.id ∈ as.map (fun x => x.id) := by
          rw [he, ← hid]
          exact List.mem_map_of_mem (fun x => x.id) hmem'
        exact hnd.1 this
      have ihr := ih hnd.2 ⟨t, hmem', hid⟩
      rw [deleteTodo, List.filter_cons_of_pos (by simpa using hane), ← deleteTodo,
        List.length_cons, List.length_cons]
      omega

/-- Claim C6: when the id is present (under the unique-id invariant)
`delete(id)` removes exactly one record — the size decreases by one and
exactly the records with a different id survive; when the id is absent
the collection is unchanged. -/
theorem deleteTodo_spec (todos : List Todo) (tid : Int)
    (hnd : (todos.map (fun t => t.id)).Nodup) :
    ((∃ t ∈ todos, t.id = tid) →
      (deleteTodo tid todos).length + 1 = todos.length ∧
      (∀ u ∈ todos, u.id ≠ tid → u ∈ deleteTodo tid todos) ∧
      (∀ u ∈ deleteTodo tid todos, u ∈ todos ∧ u.id ≠ tid)) ∧
    ((∀ t ∈ todos, t.id ≠ tid) → deleteTodo tid todos = todos) := by
  constructor
  · intro hmem
    refine ⟨deleteTodo_length todos tid hnd hmem, ?_, ?_⟩
    · intro u hu hne
      exact List.mem_filter.mpr ⟨hu, by simpa using hne⟩
    · intro u hu
      have h := List.mem_filter.mp hu
      exact ⟨h.1, by simpa using h.2⟩
  · intro habs
    rw [deleteTodo, List.filter_eq_self]
    intro u hu
    simpa using habs u hu

/-- Witness for `deleteTodo_spec` at a concrete collection. -/
theorem deleteTodo_spec_witness :
    (deleteTodo 1 [{ id := 1, text := "a", completed := false },
                   { id := 2, text := "b", completed := true }]).length + 1 = 2 :=
  ((deleteTodo_spec
      [{ id := 1, text := "a", completed := false },
       { id := 2, text := "b", completed := true }] 1 (by decide)).1
    ⟨{ id := 1, text := "a", completed := false }, by decide, rfl⟩).1

/-- Claim C5: a drag whose endpoints sit in different partitions (one
record completed, the other not) is rejected: the collection is
returned entirely unchanged, with no error. -/
theorem handleDragEnd_cross_partition (items : List Todo) (aid oid : Int)
    (a b : Todo)
    (ha : items.find? (fun t => t.id == aid) = some a)
    (hb : items.find? (fun t => t.id == oid) = some b)
    (hcomp : a.completed ≠ b.completed) :
    handleDragEnd items aid (some oid) = .ok items := by
  have hne : aid ≠ oid := by
    rintro rfl
    rw [ha] at hb
    cases hb
    exact hcomp rfl
  simp only [handleDragEnd, if_neg hne, getElem?_findIdx, ha, hb]
  rw [if_neg hcomp]

/-- Witness for `handleDragEnd_cross_partition`. -/
theorem handleDragEnd_cross_partition_witness :
    handleDragEnd [{ id := 1, text := "a", completed := false },
                   { id := 2, text := "b", completed := true }] 1 (some 2)
      = .ok [{ id := 1, text := "a", completed := false },
             { id := 2, text := "b", completed := true }] :=
  handleDragEnd_cross_partition _ 1 2
    { id := 1, text := "a", completed := false }
    { id := 2, text := "b", completed := true }
    rfl rfl (by decide)

/-- Claim C1 is false on the code: reordering with an id that matches
no record does not silently no-op; `findIndex` returns `-1`,
`items[-1]` is `undefined`, and reading `.completed` from it throws a
`TypeError`.  Concretely, with a one-record collection and an absent
`activeId = 2`, the updater throws. -/
theorem handleDragEnd_absent_id_counterexample :
    handleDragEnd [{ id := 1, text := "a", completed := false }] 2 (some 1)
      = .error () := rfl

/-- Claim C1 amended: with `activeId != overId`, if either id matches
no record, `handleDragEnd` does not return any mutated collection — but
it is not a silent no-op: it throws (a `TypeError` from reading
`completed` off `undefined`), modelled as the `Except` error value. -/
theorem handleDragEnd_absent_id_spec (items : List Todo) (aid oid : Int)
    (hne : aid ≠ oid)
    (habs : items.find? (fun t => t.id == aid) = none ∨
            items.find? (fun t => t.id == oid) = none) :
    handleDragEnd items aid (some oid) = .error () := by
  simp only [handleDragEnd, if_neg hne, getElem?_findIdx]
  rcases habs with h | h
  · cases h2 : items.find? (fun t => t.id == oid) <;> simp [h, h2]
  · cases h2 : items.find? (fun t => t.id == aid) <;> simp [h, h2]

/-- Witness for `handleDragEnd_absent_id_spec`. -/
theorem handleDragEnd_absent_id_spec_witness :
    handleDragEnd ([] : List Todo) 2 (some 1) = .error () :=
  handleDragEnd_absent_id_spec [] 2 1 (by decide) (Or.inl rfl)

/-- Claim C2 is false on the code: the load path validates nothing
beyond JSON well-formedness.  A stored value that parses fine but has
the wrong shape — here the JSON number `5` — is installed as the
component state as-is, not replaced by the empty collection. -/
theorem loadTodos_shape_mismatch_counterexample :
    loadTodos (.value (.jnum 5)) ≠ .jarr [] ∧
    decodeTodos (loadTodos (.value (.jnum 5))) = none :=
  ⟨fun h => JsValue.noConfusion h, rfl⟩

/-- Claim C2 amended: only an absent slot or a `JSON.parse` failure
falls back to the empty collection (and no exception propagates, the
parse error being caught); a value that parses successfully is
installed unchanged even when its shape does not match the Todo
Collection at all. -/
theorem loadTodos_spec :
    loadTodos .absent = .jarr [] ∧
    loadTodos .malformed = .jarr [] ∧
    ∀ v : JsValue, decodeTodos v = none → loadTodos (.value v) = v :=
  ⟨rfl, rfl, fun _ _ => rfl⟩

/-- Witness for `loadTodos_spec`. -/
theorem loadTodos_spec_witness :
    loadTodos (.value (.jbool true)) = .jbool true :=
  loadTodos_spec.2.2 (.jbool true) rfl

/-- Claim C7: applying `toggle(id)` twice restores every record's
`completed` value (in particular that of the record with the given id),
and neither application changes the collection's size or the sequence
order of its records (witnessed by the unchanged sequence of ids). -/
theorem toggleTodo_double_restores (tid : Int) (todos : List Todo) :
    ((toggleTodo tid (toggleTodo tid todos)).map (fun t => (t.id, t.completed))
        = todos.map (fun t => (t.id, t.completed))) ∧
    (toggleTodo tid todos).length = todos.length ∧
    (toggleTodo tid (toggleTodo tid todos)).length = todos.length ∧
    (toggleTodo tid todos).map (fun t => t.id) = todos.map (fun t => t.id) ∧
    (toggleTodo tid (toggleTodo tid todos)).map (fun t => t.id)
        = todos.map (fun t => t.id) := by
  refine ⟨toggleTodo_toggleTodo_map_pair tid todos, by simp [toggleTodo],
    by simp [toggleTodo], toggleTodo_map_id tid todos, ?_⟩
  rw [toggleTodo_map_id, toggleTodo_map_id]

/-! ### Persistence round-trip -/

/-- Serializing one todo record and reading it back per the record
shape restores the record exactly. -/
theorem decodeTodo_encodeTodo (t : Todo) : decodeTodo (encodeTodo t) = some t := by
  rcases t with ⟨i, s, c, o, an⟩
  cases o <;> cases an <;> simp [encodeTodo, decodeTodo, lookupField]

/-- Serializing the whole collection and reading it back restores the
collection exactly. -/
theorem decodeTodos_encodeTodos (todos : List Todo) :
    decodeTodos (encodeTodos todos) = some todos := by
  induction todos with
  | nil => rfl
  | cons t ts ih =>
    simp only [decodeTodos, encodeTodos, List.map_cons, List.mapM_cons,
      decodeTodo_encodeTodo] at ih ⊢
    rw [ih]
    rfl

/-- Claim C8: `save` followed by `load` on a fresh instance reproduces
an equal collection — same ids, texts and completed flags in the same
order, hence the same active and completed partitions. -/
theorem save_load_roundtrip (todos : List Todo) :
    ∃ restored : List Todo,
      decodeTodos (loadTodos (saveTodos todos)) = some restored ∧
      restored.map (fun t => (t.id, t.text, t.completed))
        = todos.map (fun t => (t.id, t.text, t.completed)) ∧
      activeTodos restored = activeTodos todos ∧
      completedTodos restored = completedTodos todos :=
  ⟨todos, decodeTodos_encodeTodos todos, rfl, rfl, rfl⟩

/-! ### The toggle frame effect and its persistence -/

/-- Claim C10: `toggle(id)` does not only flip `completed` on the
matched record: it also sets the transient `isAnimating` flag to
`true` (the deferred timer later resets it to `false`), while the
record's `id`, `text` and `order` and all non-matching records are
unchanged; and since `save` serializes the whole collection value, the
flag is part of what is written to the durable slot. -/
theorem toggleTodo_frame_effect (todos : List Todo) (tid : Int) (i : Nat)
    (t : Todo) (hget : todos[i]? = some t) (hid : t.id = tid) :
    (∃ t' : Todo, (toggleTodo tid todos)[i]? = some t' ∧
      t'.isAnimating = some true ∧ t'.id = t.id ∧ t'.text = t.text ∧
      t'.completed = !t.completed ∧ t'.order = t.order) ∧
    (∀ (j : Nat) (u : Todo), todos[j]? = some u → u.id ≠ tid →
      (toggleTodo tid todos)[j]? = some u) ∧
    (∃ t2 : Todo, (clearAnimation tid (toggleTodo tid todos))[i]? = some t2 ∧
      t2.isAnimating = some false) ∧
    (∃ js fields, saveTodos (toggleTodo tid todos) = .value (.jarr js) ∧
      js[i]? = some (.jobj fields) ∧ ("isAnimating", JsValue.jbool true) ∈ fields) := by
  refine ⟨?_, ?_, ?_, ?_⟩
  · refine ⟨{ t with completed := !t.completed, isAnimating := some true }, ?_,
      rfl, rfl, rfl, rfl, rfl⟩
    simp [toggleTodo, List.getElem?_map, hget, hid]
  · intro j u hju hune
    simp [toggleTodo, List.getElem?_map, hju, hune]
  · refine ⟨{ t with completed := !t.completed, isAnimating := some false }, ?_, rfl⟩
    simp [toggleTodo, clearAnimation, List.getElem?_map, hget, hid]
  · refine ⟨(toggleTodo tid todos).map encodeTodo,
      [("id", JsValue.jnum t.id), ("text", JsValue.jstr t.text),
        ("completed", JsValue.jbool (!t.completed))]
      ++ (match t.order with
          | some o => [("order", JsValue.jnum o)] | none => [])
      ++ [("isAnimating", JsValue.jbool true)], rfl, ?_, ?_⟩
    · simp [toggleTodo, List.getElem?_map, hget, hid, encodeTodo]
    · simp

/-- Witness for `toggleTodo_frame_effect`. -/
theorem toggleTodo_frame_effect_witness :
    ∃ t' : Todo,
      (toggleTodo 1 [{ id := 1, text := "a", completed := false }])[0]? = some t' ∧
      t'.isAnimating = some true ∧
      t'.id = ({ id := 1, text := "a", completed := false } : Todo).id ∧
      t'.text = ({ id := 1, text := "a", completed := false } : Todo).text ∧
      t'.completed = !({ id := 1, text := "a", completed := false } : Todo).completed ∧
      t'.order = ({ id := 1, text := "a", completed := false } : Todo).order :=
  (toggleTodo_frame_effect [{ id := 1, text := "a", completed := false }] 1 0
    { id := 1, text := "a", completed := false } rfl rfl).1

/-! ### Id uniqueness as an invariant -/

/-- Prepending the element stored at position `i` to the list with
position `i` erased is a permutation of the original list. -/
theorem cons_eraseIdx_perm (l : List α) (i : Nat) (x : α) (h : l[i]? = some x) :
    List.Perm (x :: l.eraseIdx i) l := by
  induction l generalizing i with
  | nil => simp at h
  | cons a as ih =>
    cases i with
    | zero =>
      simp only [List.getElem?_cons_zero, Option.some.injEq] at h
      subst h
      simp [List.eraseIdx_cons_zero]
    | succ n =>
      simp only [List.getElem?_cons_succ] at h
      rw [List.eraseIdx_cons_succ]
      exact (List.Perm.swap a x _).trans ((ih n h).cons a)

/-- `arrayMove` with in-range indices permutes the list. -/
theorem arrayMove_perm (l : List α) (i j : Nat) (hi : i < l.length)
    (hj : j < l.length) : List.Perm (arrayMove l i j) l := by
  have hx : l[i]? = some l[i] := List.getElem?_eq_getElem hi
  rw [arrayMove, hx]
  have hlen : j ≤ (l.eraseIdx i).length := by
    rw [List.length_eraseIdx_of_lt hi]
    omega
  exact (List.perm_insertIdx _ _ hlen).trans (cons_eraseIdx_perm l i l[i] hx)

/-- Both indices looked up by `handleDragEnd` are in range whenever it
reaches the `arrayMove` branch. -/
theorem handleDragEnd_ok_cases (items : List Todo) (aid : Int) (oid : Option Int)
    (result : List Todo) (h : handleDragEnd items aid oid = .ok result) :
    result = items ∨
    ∃ i j, i < items.length ∧ j < items.length ∧ result = arrayMove items i j := by
  match oid with
  | none =>
    simp only [handleDragEnd] at h
    cases h
    exact Or.inl rfl
  | some o =>
    by_cases he : aid = o
    · simp only [handleDragEnd, if_pos he] at h
      cases h
      exact Or.inl rfl
    · simp only [handleDragEnd, if_neg he] at h
      split at h
      · rename_i a b ha hb
        split at h
        · cases h
          refine Or.inr ⟨items.findIdx (fun item => item.id == aid),
            items.findIdx (fun item => item.id == o), ?_, ?_, rfl⟩
          · by_contra hge
            rw [List.getElem?_eq_none (Nat.le_of_not_lt hge)] at ha
            cases ha
          · by_contra hge
            rw [List.getElem?_eq_none (Nat.le_of_not_lt hge)] at hb
            cases hb
        · cases h
          exact Or.inl rfl
      · cases h

/-- Claim C9: starting from a collection whose ids are pairwise
distinct, each of the four operations — add, toggle, delete, and any
collection a reorder actually produces — yields a collection whose ids
are pairwise distinct. -/
theorem operations_preserve_unique_ids (todos : List Todo) (s : String)
    (tid did aid : Int) (oid : Option Int)
    (hnd : (todos.map (fun t => t.id)).Nodup) :
    ((addTodo s todos).map (fun t => t.id)).Nodup ∧
    ((toggleTodo tid todos).map (fun t => t.id)).Nodup ∧
    ((deleteTodo did todos).map (fun t => t.id)).Nodup ∧
    (∀ result, handleDragEnd todos aid oid = .ok result →
      (result.map (fun t => t.id)).Nodup) := by
  refine ⟨?_, ?_, ?_, ?_⟩
  · by_cases h : jsTrim s = ""
    · rw [addTodo, if_pos h]; exact hnd
    · rw [addTodo, if_neg h, List.map_append]
      refine List.Nodup.append hnd (List.nodup_singleton _) ?_
      intro x hx hx1
      simp only [List.map_cons, List.map_nil, List.mem_singleton] at hx1
      obtain ⟨u, hu, hux⟩ := List.mem_map.mp hx
      have := id_lt_generateId todos u hu
      rw [hux, hx1] at this
      exact absurd this (by simp)
  · rw [toggleTodo_map_id]; exact hnd
  · exact ((List.filter_sublist todos).map (fun t => t.id)).nodup hnd
  · intro result h
    rcases handleDragEnd_ok_cases todos aid oid result h with rfl | ⟨i, j, hi, hj, rfl⟩
    · exact hnd
    · exact ((arrayMove_perm todos i j hi hj).map (fun t => t.id)).symm.nodup hnd

/-- Witness for `operations_preserve_unique_ids`. -/
theorem operations_preserve_unique_ids_witness :
    ((addTodo "b" [{ id := 1, text := "a", completed := false }]).map
      (fun t => t.id)).Nodup :=
  (operations_preserve_unique_ids [{ id := 1, text := "a", completed := false }]
    "b" 1 1 1 none (by decide)).1

/-! ### List surgery under a filter (for the in-partition reorder claim)

`handleDragEnd` moves an element inside the master list while the spec
speaks about the *filtered* active view; the lemmas below relate
`eraseIdx`/`insertIdx` on a list to the same operations on its
`filter`, with indices translated by `countP` over the prefix. -/

theorem lt_length_of_getElem?_eq_some (l : List α) (i : Nat) (x : α)
    (h : l[i]? = some x) : i < l.length := by
  by_contra hge
  rw [List.getElem?_eq_none (Nat.le_of_not_lt hge)] at h
  cases h

/-- `arrayMove`, unfolded on an in-range first index. -/
theorem arrayMove_eq_of_getElem? (l : List α) (i j : Nat) (x : α)
    (h : l[i]? = some x) : arrayMove l i j = (l.eraseIdx i).insertIdx j x := by
  rw [arrayMove, h]

/-- Re-inserting the element stored at a position right where it was
erased restores the list. -/
theorem insertIdx_getElem_eraseIdx (l : List α) (i : Nat) (x : α)
    (h : l[i]? = some x) : (l.eraseIdx i).insertIdx i x = l := by
  induction l generalizing i with
  | nil => simp at h
  | cons a l ih =>
    cases i with
    | zero =>
      simp only [List.getElem?_cons_zero, Option.some.injEq] at h
      subst h
      rfl
    | succ i =>
      simp only [List.getElem?_cons_succ] at h
      rw [List.eraseIdx_cons_succ, List.insertIdx_succ_cons, ih i h]

/-- Inserting an element satisfying `p` commutes with `filter p`; the
insertion position in the filtered list is the count of matching
elements in the prefix. -/
theorem filter_insertIdx_pos (p : α → Bool) (x : α) (hx : p x = true) :
    ∀ (l : List α) (k : Nat), k ≤ l.length →
      (l.insertIdx k x).filter p = (l.filter p).insertIdx ((l.take k).countP p) x := by
  intro l
  induction l with
  | nil =>
    intro k hk
    have h0 : k = 0 := Nat.le_zero.mp hk
    subst h0
    simp [hx]
  | cons a l ih =>
    intro k hk
    cases k with
    | zero => simp [List.filter_cons, hx]
    | succ k =>
      rw [List.insertIdx_succ_cons, List.take_succ_cons]
      by_cases hpa : p a
      · rw [List.filter_cons_of_pos hpa, List.filter_cons_of_pos hpa,
          List.countP_cons_of_pos p _ hpa, List.insertIdx_succ_cons,
          ih k (Nat.le_of_succ_le_succ hk)]
      · rw [List.filter_cons_of_neg hpa, List.filter_cons_of_neg hpa,
          List.countP_cons_of_neg p _ hpa, ih k (Nat.le_of_succ_le_succ hk)]

/-- Inserting an element not satisfying `p` leaves `filter p` unchanged. -/
theorem filter_insertIdx_neg (p : α → Bool) (x : α) (hx : p x = false) :
    ∀ (l : List α) (k : Nat), (l.insertIdx k x).filter p = l.filter p := by
  intro l
  induction l with
  | nil =>
    intro k
    cases k with
    | zero => simp [hx]
    | succ k => rfl
  | cons a l ih =>
    intro k
    cases k with
    | zero => simp [List.filter_cons, hx]
    | succ k =>
      rw [List.insertIdx_succ_cons]
      by_cases hpa : p a
      · rw [List.filter_cons_of_pos hpa, List.filter_cons_of_pos hpa, ih k]
      · rw [List.filter_cons_of_neg hpa, List.filter_cons_of_neg hpa, ih k]

/-- Erasing a position whose element satisfies `p` commutes with
`filter p`, at the prefix-count position. -/
theorem filter_eraseIdx_pos (p : α → Bool) :
    ∀ (l : List α) (i : Nat) (x : α), l[i]? = some x → p x = true →
      (l.eraseIdx i).filter p = (l.filter p).eraseIdx ((l.take i).countP p) := by
  intro l
  induction l with
  | nil => intro i x h _; simp at h
  | cons a l ih =>
    intro i x h hx
    cases i with
    | zero =>
      simp only [List.getElem?_cons_zero, Option.some.injEq] at h
      subst h
      rw [List.eraseIdx_cons_zero, List.take_zero]
      simp [List.filter_cons_of_pos hx]
    | succ i =>
      simp only [List.getElem?_cons_succ] at h
      rw [List.eraseIdx_cons_succ, List.take_succ_cons]
      by_cases hpa : p a
      · rw [List.filter_cons_of_pos hpa, List.filter_cons_of_pos hpa,
          List.countP_cons_of_pos p _ hpa, List.eraseIdx_cons_succ, ih i x h hx]
      · rw [List.filter_cons_of_neg hpa, List.filter_cons_of_neg hpa,
          List.countP_cons_of_neg p _ hpa, ih i x h hx]

/-- Erasing a position whose element does not satisfy `p` leaves
`filter p` unchanged. -/
theorem filter_eraseIdx_neg (p : α → Bool) :
    ∀ (l : List α) (i : Nat) (x : α), l[i]? = some x → p x = false →
      (l.eraseIdx i).filter p = l.filter p := by
  intro l
  induction l with
  | nil => intro i x h _; simp at h
  | cons a l ih =>
    intro i x h hx
    cases i with
    | zero =>
      simp only [List.getElem?_cons_zero, Option.some.injEq] at h
      subst h
      rw [List.eraseIdx_cons_zero, List.filter_cons_of_neg (by simp [hx])]
    | succ i =>
      simp only [List.getElem?_cons_succ] at h
      rw [List.eraseIdx_cons_succ]
      by_cases hpa : p a
      · rw [List.filter_cons_of_pos hpa, List.filter_cons_of_pos hpa, ih i x h hx]
      · rw [List.filter_cons_of_neg hpa, List.filter_cons_of_neg hpa, ih i x h hx]

/-- Erasing one position removes exactly that element's contribution to
`countP`. -/
theorem countP_eraseIdx_add (p : α → Bool) :
    ∀ (l : List α) (i : Nat) (x : α), l[i]? = some x →
      (l.eraseIdx i).countP p + (if p x then 1 else 0) = l.countP p := by
  intro l
  induction l with
  | nil => intro i x h; simp at h
  | cons a l ih =>
    intro i x h
    cases i with
    | zero =>
      simp only [List.getElem?_cons_zero, Option.some.injEq] at h
      subst h
      rw [List.eraseIdx_cons_zero, List.countP_cons]
    | succ i =>
      simp only [List.getElem?_cons_succ] at h
      rw [List.eraseIdx_cons_succ, List.countP_cons, List.countP_cons]
      have := ih i x h
      omega

/-- Taking at most the erased position commutes with `eraseIdx`. -/
theorem take_eraseIdx_of_le :
    ∀ (l : List α) (i j : Nat), j ≤ i → (l.eraseIdx i).take j = l.take j := by
  intro l
  induction l with
  | nil => intro i j _; simp
  | cons a l ih =>
    intro i j h
    cases j with
    | zero => simp
    | succ j =>
      cases i with
      | zero => omega
      | succ i =>
        rw [List.eraseIdx_cons_succ, List.take_succ_cons, List.take_succ_cons,
          ih i j (Nat.le_of_succ_le_succ h)]

/-- Taking strictly past the erased position commutes with `eraseIdx`,
taking one extra element to compensate. -/
theorem take_eraseIdx_of_gt :
    ∀ (l : List α) (i j : Nat), i < j →
      (l.eraseIdx i).take j = (l.take (j + 1)).eraseIdx i := by
  intro l
  induction l with
  | nil => intro i j _; simp
  | cons a l ih =>
    intro i j h
    cases i with
    | zero =>
      cases j with
      | zero => omega
      | succ j =>
        rw [List.eraseIdx_cons_zero, List.take_succ_cons, List.eraseIdx_cons_zero]
    | succ i =>
      cases j with
      | zero => omega
      | succ j =>
        rw [List.eraseIdx_cons_succ, List.take_succ_cons, List.take_succ_cons,
          List.eraseIdx_cons_succ, ih i j (Nat.lt_of_succ_lt_succ h)]

/-- An element of the list satisfying `p` appears in `filter p` at the
prefix-count position. -/
theorem filter_getElem?_countP (p : α → Bool) :
    ∀ (l : List α) (k : Nat) (x : α), l[k]? = some x → p x = true →
      (l.filter p)[(l.take k).countP p]? = some x := by
  intro l
  induction l with
  | nil => intro k x h _; simp at h
  | cons a l ih =>
    intro k x h hx
    cases k with
    | zero =>
      simp only [List.getElem?_cons_zero, Option.some.injEq] at h
      subst h
      simp [List.filter_cons_of_pos hx]
    | succ k =>
      simp only [List.getElem?_cons_succ] at h
      rw [List.take_succ_cons]
      by_cases hpa : p a
      · rw [List.filter_cons_of_pos hpa, List.countP_cons_of_pos p _ hpa,
          List.getElem?_cons_succ]
        exact ih k x h hx
      · rw [List.filter_cons_of_neg hpa, List.countP_cons_of_neg p _ hpa]
        exact ih k x h hx

/-- Extending a `take` by the element at its end adds that element's
contribution to `countP`. -/
theorem countP_take_succ_of_getElem? (p : α → Bool) (l : List α) (j : Nat)
    (x : α) (h : l[j]? = some x) :
    (l.take (j + 1)).countP p = (l.take j).countP p + (if p x then 1 else 0) := by
  rw [List.take_succ, h, List.countP_append]
  simp [List.countP_cons]

/-- Moving an element that satisfies `p` to the position of another
element satisfying `p` commutes with `filter p`: the filtered list
undergoes the same move at the elements' filtered positions. -/
theorem filter_arrayMove_eq (p : α → Bool) (l : List α) (i j : Nat) (x y : α)
    (hnd : l.Nodup) (hgi : l[i]? = some x) (hgj : l[j]? = some y)
    (hpx : p x = true) (hpy : p y = true) (ia ib : Nat)
    (hia : (l.filter p)[ia]? = some x) (hib : (l.filter p)[ib]? = some y) :
    (arrayMove l i j).filter p = arrayMove (l.filter p) ia ib := by
  have hlti := lt_length_of_getElem?_eq_some l i x hgi
  have hltj := lt_length_of_getElem?_eq_some l j y hgj
  have hfnd : (l.filter p).Nodup := (List.filter_sublist l).nodup hnd
  have hposx := filter_getElem?_countP p l i x hgi hpx
  have hposy := filter_getElem?_countP p l j y hgj hpy
  have hia2 : ia = (l.take i).countP p :=
    List.getElem?_inj (lt_length_of_getElem?_eq_some _ ia x hia) hfnd
      (hia.trans hposx.symm)
  have hib2 : ib = (l.take j).countP p :=
    List.getElem?_inj (lt_length_of_getElem?_eq_some _ ib y hib) hfnd
      (hib.trans hposy.symm)
  have hjle : j ≤ (l.eraseIdx i).length := by
    rw [List.length_eraseIdx_of_lt hlti]
    omega
  rw [arrayMove_eq_of_getElem? l i j x hgi, arrayMove_eq_of_getElem? _ ia ib x hia,
    filter_insertIdx_pos p x hpx (l.eraseIdx i) j hjle,
    filter_eraseIdx_pos p l i x hgi hpx, hia2, hib2]
  congr 1
  rcases Nat.lt_or_ge i j with hij | hij
  · rw [take_eraseIdx_of_gt l i j hij]
    have h1 : (l.take (j + 1))[i]? = some x := by
      rw [List.getElem?_take_of_lt (by omega)]
      exact hgi
    have h2 := countP_eraseIdx_add p (l.take (j + 1)) i x h1
    have h3 := countP_take_succ_of_getElem? p l j y hgj
    rw [hpx] at h2
    rw [hpy] at h3
    simp only [if_pos trivial] at h2 h3
    omega
  · rw [take_eraseIdx_of_le l i j hij]

/-- Moving an element that does not satisfy `p` leaves `filter p`
unchanged. -/
theorem filter_arrayMove_neg (p : α → Bool) (l : List α) (i j : Nat) (x : α)
    (hgi : l[i]? = some x) (hpx : p x = false) :
    (arrayMove l i j).filter p = l.filter p := by
  rw [arrayMove_eq_of_getElem? l i j x hgi,
    filter_insertIdx_neg p x hpx (l.eraseIdx i) j,
    filter_eraseIdx_neg p l i x hgi hpx]

/-- Claim C4: when both ids identify records of the active partition
(under the unique-id invariant), the drag succeeds and rearranges the
active partition exactly by an array-move at the records' partition
positions — so the set of active ids is preserved — while the completed
partition's sequence is left identical. -/
theorem handleDragEnd_within_active (items : List Todo) (aid oid : Int)
    (a b : Todo) (ia ib : Nat)
    (hnd : (items.map (fun t => t.id)).Nodup)
    (ha : items.find? (fun t => t.id == aid) = some a)
    (hb : items.find? (fun t => t.id == oid) = some b)
    (hac : a.completed = false) (hbc : b.completed = false)
    (hia : (activeTodos items)[ia]? = some a)
    (hib : (activeTodos items)[ib]? = some b) :
    ∃ result, handleDragEnd items aid (some oid) = .ok result ∧
      activeTodos result = arrayMove (activeTodos items) ia ib ∧
      (∀ x : Int, x ∈ (activeTodos result).map (fun t => t.id) ↔
        x ∈ (activeTodos items).map (fun t => t.id)) ∧
      completedTodos result = completedTodos items := by
  have hndl : items.Nodup := List.Nodup.of_map (fun t => t.id) hnd
  have hlt_ia : ia < (activeTodos items).length :=
    lt_length_of_getElem?_eq_some _ ia a hia
  have hlt_ib : ib < (activeTodos items).length :=
    lt_length_of_getElem?_eq_some _ ib b hib
  have hfnd : (activeTodos items).Nodup :=
    (List.filter_sublist items).nodup hndl
  by_cases heq : aid = oid
  · have hab : a = b := by
      rw [heq] at ha
      rw [ha] at hb
      exact Option.some.inj hb
    have hiaib : ia = ib :=
      List.getElem?_inj hlt_ia hfnd (hia.trans (by rw [hib, hab]))
    refine ⟨items, ?_, ?_, fun x => Iff.rfl, rfl⟩
    · simp only [handleDragEnd, if_pos heq]
    · rw [← hiaib, arrayMove_eq_of_getElem? (activeTodos items) ia ia a hia]
      exact (insertIdx_getElem_eraseIdx (activeTodos items) ia a hia).symm
  · have hgi : items[items.findIdx (fun item => item.id == aid)]? = some a := by
      rw [getElem?_findIdx]
      exact ha
    have hgj : items[items.findIdx (fun item => item.id == oid)]? = some b := by
      rw [getElem?_findIdx]
      exact hb
    have hact : activeTodos (arrayMove items
        (items.findIdx (fun item => item.id == aid))
        (items.findIdx (fun item => item.id == oid)))
        = arrayMove (activeTodos items) ia ib :=
      filter_arrayMove_eq (fun t : Todo => !t.completed) items _ _ a b hndl hgi hgj
        (by simp [hac]) (by simp [hbc]) ia ib hia hib
    refine ⟨arrayMove items (items.findIdx (fun item => item.id == aid))
      (items.findIdx (fun item => item.id == oid)), ?_, hact, ?_, ?_⟩
    · simp only [handleDragEnd, if_neg heq, getElem?_findIdx, ha, hb]
      rw [if_pos (hac.trans hbc.symm)]
    · intro x
      rw [hact]
      exact ((arrayMove_perm (activeTodos items) ia ib hlt_ia hlt_ib).map
        (fun t => t.id)).mem_iff
    · exact filter_arrayMove_neg (fun t : Todo => t.completed) items _ _ a hgi
        (by simp [hac])

/-- Witness for `handleDragEnd_within_active`. -/
theorem handleDragEnd_within_active_witness :
    ∃ result, handleDragEnd
        [{ id := 1, text := "a", completed := false },
         { id := 2, text := "b", completed := false }] 1 (some 2) = .ok result ∧
      activeTodos result
        = arrayMove (activeTodos
            [{ id := 1, text := "a", completed := false },
             { id := 2, text := "b", completed := false }]) 0 1 ∧
      (∀ x : Int, x ∈ (activeTodos result).map (fun t => t.id) ↔
        x ∈ (activeTodos
          [{ id := 1, text := "a", completed := false },
           { id := 2, text := "b", completed := false }]).map (fun t => t.id)) ∧
      completedTodos result
        = completedTodos
            [{ id := 1, text := "a", completed := false },
             { id := 2, text := "b", completed := false }] :=
  handleDragEnd_within_active
    [{ id := 1, text := "a", completed := false },
     { id := 2, text := "b", completed := false }] 1 2
    { id := 1, text := "a", completed := false }
    { id := 2, text := "b", completed := false } 0 1
    (by decide) rfl rfl rfl rfl rfl rfl

end TodoApp
